import Mathlib

/-
Verification development for the ANNO newspaper-scraper worker subsystem
(files 03anno_worker_module.py, 04run_anno_workers.py,
05merging_tool_worker_output.py).

The Python functions are shallowly embedded as pure Lean functions:
  - network I/O is abstracted into an oracle (`HttpOutcome` per request,
    or a fetch oracle `Nat → Option String × Option String` per page);
  - the per-worker progress dict and output CSV are threaded explicitly
    (for `scrape_issue`, only the entry of the single key
    `aid ++ "_" ++ date_str` that the function touches is threaded, plus a
    durable-effect trace recording the order of CSV appends and progress
    saves);
  - Python exceptions are modelled with `Except` inside the try-block and
    resolved at the except-handler, exactly mirroring the source's
    `try/except` extents.
-/

namespace Anno

/-! ### Python whitespace and `str.strip()` (ASCII fragment)

Python's `\s` and `str.strip()` use the whitespace class
space, tab, newline, carriage return, vertical tab, form feed
(plus further Unicode whitespace, which cannot occur in the
bracketed ANNO headers these functions are applied to). -/

def pyWS (c : Char) : Bool :=
  c = ' ' || c = '\t' || c = '\n' || c = '\r' || c = '\x0b' || c = '\x0c'

/-- Model of Python `str.strip()` on the underlying character list. -/
def pyStripList (l : List Char) : List Char :=
  ((l.dropWhile pyWS).reverse.dropWhile pyWS).reverse

/-- Model of Python `str.strip()`. -/
def pyStrip (s : String) : String :=
  ⟨pyStripList s.data⟩

/-! ### The placeholder pattern of `scrape_page`

`re.fullmatch(r"\[\s*\d{4}-\d{2}-\d{2}\s*-\s*\d{8}\s*-\s*Seite\s+\d+\s*\]", s)`
is decided by a hand-rolled scanner.  All character classes involved
(digits, whitespace, the literal characters) are pairwise disjoint, so the
regex is deterministic and maximal-munch scanning is equivalent to it. -/

/-- Consume an exact literal character sequence. -/
def eatExact : List Char → List Char → Option (List Char)
  | [], l => some l
  | c :: cs, l =>
    match l with
    | [] => none
    | d :: l2 => if d = c then eatExact cs l2 else none

/-- Consume exactly `n` ASCII digits (regex `\d{n}`). -/
def eatDigits : Nat → List Char → Option (List Char)
  | 0, l => some l
  | n + 1, l =>
    match l with
    | [] => none
    | c :: l2 => if c.isDigit then eatDigits n l2 else none

/-- Consume `\s*` (always succeeds). -/
def eatWS (l : List Char) : List Char := l.dropWhile pyWS

/-- Consume `\s+` (at least one whitespace character). -/
def eatWS1 : List Char → Option (List Char)
  | [] => none
  | c :: l => if pyWS c then some (l.dropWhile pyWS) else none

/-- Consume `\d+` (at least one digit). -/
def eatDigits1 : List Char → Option (List Char)
  | [] => none
  | c :: l => if c.isDigit then some (l.dropWhile Char.isDigit) else none

/-- Decides the full match of
`\[\s*\d{4}-\d{2}-\d{2}\s*-\s*\d{8}\s*-\s*Seite\s+\d+\s*\]`
against the whole string (the source applies it to `r.text.strip()`). -/
def placeholderMatch (s : String) : Bool :=
  let parse : Option (List Char) := do
    let l ← eatExact ['['] s.data
    let l ← eatDigits 4 (eatWS l)
    let l ← eatExact ['-'] l
    let l ← eatDigits 2 l
    let l ← eatExact ['-'] l
    let l ← eatDigits 2 l
    let l ← eatExact ['-'] (eatWS l)
    let l ← eatDigits 8 (eatWS l)
    let l ← eatExact ['-'] (eatWS l)
    let l ← eatExact ['S', 'e', 'i', 't', 'e'] (eatWS l)
    let l ← eatWS1 l
    let l ← eatDigits1 l
    let l ← eatExact [']'] (eatWS l)
    pure l
  match parse with
  | some [] => true
  | _ => false

/-- Model of `re.sub(r"^.*?\]\s*", "", text, flags=re.DOTALL)`: with DOTALL
and a non-greedy `.*?`, the match — when a `]` exists — runs up to and
including the first `]` plus the whitespace following it, and is removed;
when the text has no `]`, the pattern does not match and the text is
returned unchanged. -/
def stripHeader (l : List Char) : List Char :=
  if l.contains ']' then ((l.dropWhile (fun c => c != ']')).drop 1).dropWhile pyWS
  else l

/-- The content extracted by `scrape_page` from a response body:
`re.sub(r"^.*?\]\s*", "", r.text, flags=re.DOTALL).strip()`. -/
def extractContent (text : String) : String :=
  ⟨pyStripList (stripHeader text.data)⟩

/-! ### The Fetcher: `scrape_page`

One HTTP request is abstracted as its outcome: either a final response
(status code and body text) or an exception raised by `session.get`
(timeout, connection error, ...).  The politeness `time.sleep` and the
`session.get` call are recorded in an event trace in source order. -/

/-- Outcome of the single `session.get` call in `scrape_page`. -/
inductive HttpOutcome where
  | response (status : Nat) (body : String)
  | exception
deriving DecidableEq

/-- Observable side effects inside `scrape_page`, in order of occurrence. -/
inductive SPEvent where
  | request
  | sleep
deriving DecidableEq

/-- Python exceptions that can be raised inside the try-block of
`scrape_page`. -/
inductive PyExc where
  | permissionError
  | httpError
  | requestException
deriving DecidableEq

/-- The try-block of `scrape_page`, before the `except Exception` handler;
first component is the side-effect trace.  Source order:
`r = session.get(...)`; `time.sleep(uniform(0.0, 0.01))`;
`if r.status_code == 403: raise PermissionError`; `if r.status_code == 500:
return None, "server_error_500"`; `r.raise_for_status()` (raises for
status 400–599); the placeholder fullmatch check on `r.text.strip()`; the
header strip; `return (content, None) if content else (None, "no_content")`. -/
def scrapePageTry (o : HttpOutcome) : List SPEvent × Except PyExc (Option String × Option String) :=
  match o with
  | .exception => ([.request], .error .requestException)
  | .response st body =>
    ([.request, .sleep],
      if st = 403 then .error .permissionError
      else if st = 500 then .ok (none, some "server_error_500")
      else if 400 ≤ st ∧ st < 600 then .error .httpError
      else if placeholderMatch (pyStrip body) then .ok (none, some "invalid_index")
      else
        let content := extractContent body
        if content = "" then .ok (none, some "no_content") else .ok (some content, none))

/-- `scrape_page`: the try-block result passed through the
`except Exception` handler, which catches every exception — including the
`PermissionError` raised two lines above it — and returns
`(None, "error")`. -/
def scrape_page (o : HttpOutcome) : Option String × Option String :=
  match (scrapePageTry o).2 with
  | .ok r => r
  | .error _ => (none, some "error")

/-- The side-effect trace of one `scrape_page` call. -/
def scrapePageEvents (o : HttpOutcome) : List SPEvent :=
  (scrapePageTry o).1

/-! ### The Issue Scraper: `scrape_issue` -/

/-- One output CSV row:
`title, aid, year, month, day, page, text` (year, month, day produced by
`datetime.strptime(str(date_str), "%Y%m%d")` on the 8-digit date). -/
structure Row where
  title : String
  aid : String
  year : Nat
  month : Nat
  day : Nat
  page : Nat
  text : String
deriving DecidableEq

/-- Year field of `strptime(date_str, "%Y%m%d")` for an 8-digit date. -/
def dateYear (d : String) : Nat := (d.take 4).toNat?.getD 0

/-- Month field of `strptime(date_str, "%Y%m%d")` for an 8-digit date. -/
def dateMonth (d : String) : Nat := ((d.drop 4).take 2).toNat?.getD 0

/-- Day field of `strptime(date_str, "%Y%m%d")` for an 8-digit date. -/
def dateDay (d : String) : Nat := (d.drop 6).toNat?.getD 0

/-- The `record` dict built by `scrape_issue` for one fetched page. -/
def mkRecord (aid title date_str : String) (page : Nat) (text : String) : Row :=
  { title := title
    aid := aid
    year := dateYear date_str
    month := dateMonth date_str
    day := dateDay date_str
    page := page
    text := text }

/-- Durable effects of `scrape_issue`, in order: a row appended to
`output_worker_<id>.csv`, and a `save_progress` call persisting the
progress mapping (we record the entry for the one issue-key the call
mutates). -/
inductive DurableEvent where
  | appendRow (r : Row)
  | saveProgress (prog : List String)
deriving DecidableEq

/-- State threaded through the `scrape_issue` loop: the `results` list it
returns, the in-memory progress entry for this issue-key, the durable
effect trace, and the pages for which `scrape_page` was actually invoked
(network requests). -/
structure IssueState where
  results : List Row
  prog : List String
  events : List DurableEvent
  fetched : List Nat
deriving DecidableEq

/-- Initial state of one `scrape_issue` call whose issue-key currently maps
to `already` (`progress.get(aid + "_" + date_str, [])`). -/
def initState (already : List String) : IssueState :=
  { results := [], prog := already, events := [], fetched := [] }

/-- The `for page_index in range(1, max_pages + 1)` loop of `scrape_issue`,
specialized to the single issue-key the call touches.  Per iteration:

  - `if str(page_index) in already_done_pages: continue` — no network call
    (`already_done_pages` aliases the progress entry when the key
    pre-exists, but the pages appended during the loop are decimal strings
    of indices strictly below every index still to be tested — decimal
    representation being injective, see `reprInjective` — so testing
    against the initial list is behaviorally identical);
  - `text, err = scrape_page(...)`;
  - `if err in ["server_error_500", "no_content", "invalid_index"]: break`;
  - `if text:` append the record to the output CSV, then
    `progress.setdefault(key, []).append(str(page_index))` and
    `save_progress(...)`, then `results.append(record)`; `else: break`. -/
def scrapeIssueGo (fetch : Nat → Option String × Option String)
    (aid title date_str : String) (already : List String) :
    List Nat → IssueState → IssueState
  | [], s => s
  | p :: rest, s =>
    if Nat.repr p ∈ already then
      scrapeIssueGo fetch aid title date_str already rest s
    else
      let s1 : IssueState := { s with fetched := s.fetched ++ [p] }
      let res := fetch p
      if res.2 = some "server_error_500" ∨ res.2 = some "no_content" ∨
          res.2 = some "invalid_index" then
        s1
      else
        match res.1 with
        | none => s1
        | some t =>
          if t = "" then s1
          else
            let r := mkRecord aid title date_str p t
            let prog2 := s1.prog ++ [Nat.repr p]
            scrapeIssueGo fetch aid title date_str already rest
              { results := s1.results ++ [r]
                prog := prog2
                events := s1.events ++ [.appendRow r, .saveProgress prog2]
                fetched := s1.fetched }

/-- `scrape_issue(aid, title, date_str, worker_id, progress, max_pages=100)`,
with the network abstracted into a per-page fetch oracle (`fetch p` is the
`(text, err)` pair `scrape_page` returns for page `p`) and `already` the
progress entry currently stored under this issue-key. -/
def scrape_issue (fetch : Nat → Option String × Option String)
    (aid title date_str : String) (already : List String)
    (max_pages : Nat := 100) : IssueState :=
  scrapeIssueGo fetch aid title date_str already
    (List.range' 1 max_pages) (initState already)

/-- Whether one page result lets the `scrape_issue` loop continue to the
next page: the `err` code is none of the three break codes and `text` is
truthy (a nonempty string). -/
def continues (res : Option String × Option String) : Bool :=
  if res.2 = some "server_error_500" ∨ res.2 = some "no_content" ∨
      res.2 = some "invalid_index" then false
  else
    match res.1 with
    | none => false
    | some t => t != ""

/-! ### The Worker: `run_worker` -/

/-- `progress.get(key, [])` on the per-worker progress dict (modelled as an
association list). -/
def progGet (progress : List (String × List String)) (key : String) : List String :=
  match progress.find? (fun e => e.1 == key) with
  | some e => e.2
  | none => []

/-- Store a value under a key in the progress dict. -/
def progSet (progress : List (String × List String)) (key : String)
    (v : List String) : List (String × List String) :=
  match progress with
  | [] => [(key, v)]
  | e :: rest => if e.1 == key then (key, v) :: rest else e :: progSet rest key v

/-- State of one worker's loop over its partition: its progress dict and,
per processed issue, the pages it actually requested. -/
structure WorkerState where
  progress : List (String × List String)
  fetchedPerIssue : List (List Nat)
deriving DecidableEq

/-- The issue loop of `run_worker`, driven by an HTTP oracle
`http aid date page`.  Because `scrape_page` catches every exception
internally (returning `(None, "error")`), `scrape_issue` is total and the
`except PermissionError: break` in the source is unreachable: the loop
always processes every issue of the partition. -/
def runWorkerGo (http : String → String → Nat → HttpOutcome) :
    List (String × String × String) → WorkerState → WorkerState
  | [], s => s
  | (aid, title, date) :: rest, s =>
    let key := aid ++ "_" ++ date
    let st := scrape_issue (fun p => scrape_page (http aid date p)) aid title date
      (progGet s.progress key)
    runWorkerGo http rest
      { progress := progSet s.progress key st.prog
        fetchedPerIssue := s.fetchedPerIssue ++ [st.fetched] }

/-- The partition computed by `run_worker`:
`df = df.reset_index(drop=True); df = df[df.index % total_workers == (worker_id - 1)]`.
Rows are kept with their 0-based index. -/
def workerPartition (total_workers worker_id : Nat) (issues : List α) :
    List (Nat × α) :=
  issues.enum.filter (fun p => p.1 % total_workers == worker_id - 1)

/-! ### The Merge Step (05merging_tool_worker_output.py)

`pd.concat(dfs); merged.sort_values(["aid", "year", "month", "day", "page"])`:
concatenation of the worker files followed by a lexicographic sort on the
five key columns.  `sort_values` is modelled by a sorting function proved
to produce a permutation sorted under the key order; which stable sorting
algorithm pandas uses internally is not observable in the claims. -/

/-- The sort key `(aid, year, month, day, page)` with lexicographic
comparison (string order on `aid`, numeric on the rest). -/
def rowKey (r : Row) : Lex (String × Lex (Nat × Lex (Nat × Lex (Nat × Nat)))) :=
  toLex (r.aid, toLex (r.year, toLex (r.month, toLex (r.day, r.page))))

/-- Row order used by the merge step. -/
def rowKeyLe (a b : Row) : Prop :=
  rowKey a ≤ rowKey b

instance : DecidableRel rowKeyLe := fun a b =>
  inferInstanceAs (Decidable (rowKey a ≤ rowKey b))

instance : IsTotal Row rowKeyLe :=
  ⟨fun a b => le_total (rowKey a) (rowKey b)⟩

instance : IsTrans Row rowKeyLe :=
  ⟨fun _ _ _ h1 h2 => le_trans h1 h2⟩

/-- The merge step: concatenate all worker output files, then sort by
`(aid, year, month, day, page)`. -/
def mergeWorkerOutputs (files : List (List Row)) : List Row :=
  List.insertionSort rowKeyLe files.flatten

/-! ### Injectivity of the decimal representation

`scrape_issue` keys its durable progress entries by the Python decimal
string `str(page_index)`, i.e. `Nat.repr` in this embedding.  Several
invariants hinge on distinct page numbers having distinct strings, proved
here from first principles by decoding the digit list produced by
`Nat.toDigitsCore`. -/

/-- Decode a digit character list most-significant-first, with accumulator. -/
def decodeDigits (acc : Nat) : List Char → Nat
  | [] => acc
  | c :: l => decodeDigits (10 * acc + (c.toNat - 48)) l

/-- Rows appended to the output CSV along a durable trace. -/
def rowsOf (t : List DurableEvent) : List Row :=
  t.filterMap (fun e =>
    match e with
    | .appendRow r => some r
    | .saveProgress _ => none)

/-- The progress entry on disk after a durable trace, starting from the
entry `a` persisted before the trace. -/
def lastProg (a : List String) (t : List DurableEvent) : List String :=
  t.foldl (fun acc e =>
    match e with
    | .saveProgress pl => pl
    | .appendRow _ => acc) a

/-- `BlockTrace already rs t` says the durable trace `t` consists of one
block per row of `rs`, each block being the CSV append of that row
immediately followed by the progress save whose persisted entry extends
`already` with the page strings of the rows appended so far; pages grow
strictly along the trace. -/
inductive BlockTrace (already : List String) : List Row → List DurableEvent → Prop
  | nil : BlockTrace already [] []
  | snoc (rs : List Row) (t : List DurableEvent) (r : Row) :
      BlockTrace already rs t →
      (∀ r2 ∈ rs, r2.page < r.page) →
      BlockTrace already (rs ++ [r])
        (t ++ [.appendRow r,
               .saveProgress (already ++ (rs ++ [r]).map (fun x => Nat.repr x.page))])

/-- Modelled from the spec, section 4.1 item 5: the remainder of the body
after stripping everything up to and including the first right bracket
(when the body has one; the following-whitespace removal the spec mentions
is subsumed by the subsequent trim). -/
def specStripAfterBracket (l : List Char) : List Char :=
  if l.contains ']' then (l.dropWhile (fun c => c != ']')).drop 1 else l

/-- The body classification described by the spec for 2xx responses. -/
inductive SpecBodyClass where
  | terminalMalformed
  | terminalEmpty
  | content (text : String)
deriving DecidableEq

/-- Modelled from the spec, section 4.1 items 4 and 5: a body whose trimmed
text matches exactly the bracketed placeholder pattern is
terminal-malformed; otherwise the header prefix is stripped and the
remainder trimmed, an empty remainder being terminal-empty and a nonempty
one being content. -/
def specClassifyBody (body : String) : SpecBodyClass :=
  if placeholderMatch (pyStrip body) then .terminalMalformed
  else
    let rest := pyStrip ⟨specStripAfterBracket body.data⟩
    if rest = "" then .terminalEmpty else .content rest

/-- The `(text, err)` pair of `scrape_page` denoting each spec-side body
class. -/
def specToPair : SpecBodyClass → Option String × Option String
  | .terminalMalformed => (none, some "invalid_index")
  | .terminalEmpty => (none, some "no_content")
  | .content t => (some t, none)

theorem decodeDigits_append (l1 l2 : List Char) (acc : Nat) :
    decodeDigits acc (l1 ++ l2) = decodeDigits (decodeDigits acc l1) l2 := by
  induction l1 generalizing acc with
  | nil => rfl
  | cons c l ih => exact ih (10 * acc + (c.toNat - 48))

set_option maxHeartbeats 1000000 in
theorem digitChar_decode_all : ∀ n < 10, (Nat.digitChar n).toNat - 48 = n := by
  decide

theorem digitChar_decode {n : Nat} (h : n < 10) :
    (Nat.digitChar n).toNat - 48 = n :=
  digitChar_decode_all n h

theorem toDigitsCore_step (fuel n : Nat) (ds : List Char) :
    Nat.toDigitsCore 10 (fuel + 1) n ds =
      if n / 10 = 0 then Nat.digitChar (n % 10) :: ds
      else Nat.toDigitsCore 10 fuel (n / 10) (Nat.digitChar (n % 10) :: ds) := rfl

theorem toDigitsCore_append (fuel n : Nat) (ds : List Char) (h : n < fuel) :
    Nat.toDigitsCore 10 fuel n ds = Nat.toDigitsCore 10 fuel n [] ++ ds := by
  induction fuel generalizing n ds with
  | zero => omega
  | succ fuel ih =>
    rw [toDigitsCore_step, toDigitsCore_step]
    by_cases h10 : n / 10 = 0
    · rw [if_pos h10, if_pos h10]
      rfl
    · have hlt : n / 10 < fuel := by
        have h1 : n / 10 < n := Nat.div_lt_self (by omega) (by omega)
        omega
      rw [if_neg h10, if_neg h10, ih _ _ hlt,
        ih _ ([Nat.digitChar (n % 10)]) hlt, List.append_assoc]
      rfl

theorem toDigitsCore_fuel (f1 f2 n : Nat) (h1 : n < f1) (h2 : n < f2) :
    Nat.toDigitsCore 10 f1 n [] = Nat.toDigitsCore 10 f2 n [] := by
  induction f1 generalizing f2 n with
  | zero => omega
  | succ f1 ih =>
    cases f2 with
    | zero => omega
    | succ f2 =>
      rw [toDigitsCore_step, toDigitsCore_step]
      by_cases h10 : n / 10 = 0
      · rw [if_pos h10, if_pos h10]
      · have hn : n / 10 < n := Nat.div_lt_self (by omega) (by omega)
        rw [if_neg h10, if_neg h10,
          toDigitsCore_append f1 (n / 10) _ (by omega),
          toDigitsCore_append f2 (n / 10) _ (by omega), ih f2 (n / 10) (by omega) (by omega)]

theorem decode_toDigits (n : Nat) :
    ∀ acc, decodeDigits acc (Nat.toDigits 10 n) =
      acc * 10 ^ (Nat.toDigits 10 n).length + n := by
  induction n using Nat.strong_induction_on with
  | _ n ih =>
    intro acc
    by_cases h : n < 10
    · have h10 : n / 10 = 0 := by omega
      have hunf : Nat.toDigits 10 n = [Nat.digitChar (n % 10)] := by
        show Nat.toDigitsCore 10 (n + 1) n [] = _
        rw [toDigitsCore_step, if_pos h10]
      rw [hunf]
      show 10 * acc + ((Nat.digitChar (n % 10)).toNat - 48) = acc * 10 ^ 1 + n
      rw [Nat.mod_eq_of_lt h, digitChar_decode h]
      ring
    · have hdiv : n / 10 < n := Nat.div_lt_self (by omega) (by omega)
      have hstep : Nat.toDigits 10 n =
          Nat.toDigits 10 (n / 10) ++ [Nat.digitChar (n % 10)] := by
        have h10 : ¬ n / 10 = 0 := by omega
        show Nat.toDigitsCore 10 (n + 1) n [] = _
        rw [toDigitsCore_step, if_neg h10,
          toDigitsCore_append n (n / 10) _ (by omega),
          toDigitsCore_fuel n (n / 10 + 1) (n / 10) (by omega) (by omega)]
        rfl
      rw [hstep, decodeDigits_append, ih (n / 10) hdiv acc, List.length_append]
      show 10 * (acc * 10 ^ (Nat.toDigits 10 (n / 10)).length + n / 10) +
          ((Nat.digitChar (n % 10)).toNat - 48) =
          acc * 10 ^ ((Nat.toDigits 10 (n / 10)).length + 1) + n
      have hm : n % 10 < 10 := Nat.mod_lt _ (by omega)
      rw [digitChar_decode hm]
      have hdm : 10 * (n / 10) + n % 10 = n := Nat.div_add_mod n 10
      ring_nf
      omega

theorem decode_toDigits_zero (n : Nat) : decodeDigits 0 (Nat.toDigits 10 n) = n := by
  rw [decode_toDigits n 0]
  ring

/-- `str()` on page numbers is injective: distinct pages have distinct
decimal strings. -/
theorem reprInjective : Function.Injective Nat.repr := by
  intro m n h
  have hd : Nat.toDigits 10 m = Nat.toDigits 10 n := by
    have := congrArg String.data h
    simpa [Nat.repr, List.asString] using this
  have := congrArg (decodeDigits 0) hd
  rwa [decode_toDigits_zero, decode_toDigits_zero] at this

/-- Membership of a page string in a checkpoint entry of the contiguous
shape: the string of `p` occurs among the strings of `1..k` exactly when
`1 ≤ p ≤ k`. -/
theorem mem_reprRange (k p : Nat) :
    Nat.repr p ∈ (List.range' 1 k).map Nat.repr ↔ 1 ≤ p ∧ p ≤ k := by
  rw [List.mem_map]
  constructor
  · rintro ⟨a, ha, hrepr⟩
    rw [reprInjective.eq_iff] at hrepr
    rw [List.mem_range'_1] at ha
    omega
  · intro hp
    exact ⟨p, List.mem_range'_1.mpr (by omega), rfl⟩

/-! ### Step lemmas for the `scrape_issue` loop -/

section IssueLemmas

variable (fetch : Nat → Option String × Option String) (aid title date_str : String)
variable (already : List String)

/-- Skip step: the page string is already in the checkpoint entry, so the
loop advances with no fetch and no state change. -/
theorem scrapeIssueGo_skip {p : Nat} (hmem : Nat.repr p ∈ already)
    (rest : List Nat) (s : IssueState) :
    scrapeIssueGo fetch aid title date_str already (p :: rest) s =
      scrapeIssueGo fetch aid title date_str already rest s := by
  rw [scrapeIssueGo, if_pos hmem]

/-- Skipping a whole leading segment of pages that are all recorded in the
checkpoint entry. -/
theorem scrapeIssueGo_skip_all {ps : List Nat}
    (hps : ∀ p ∈ ps, Nat.repr p ∈ already) (rest : List Nat) (s : IssueState) :
    scrapeIssueGo fetch aid title date_str already (ps ++ rest) s =
      scrapeIssueGo fetch aid title date_str already rest s := by
  induction ps with
  | nil => rfl
  | cons p ps ih =>
    rw [List.cons_append,
      scrapeIssueGo_skip fetch aid title date_str already (hps p (by simp)) _ s,
      ih (fun q hq => hps q (by simp [hq]))]

/-- Break step: the page is not recorded, the fetch result does not let the
loop continue, so the loop ends having recorded the one extra fetch. -/
theorem scrapeIssueGo_break {p : Nat} (hmem : Nat.repr p ∉ already)
    (hc : continues (fetch p) = false) (rest : List Nat) (s : IssueState) :
    scrapeIssueGo fetch aid title date_str already (p :: rest) s =
      { s with fetched := s.fetched ++ [p] } := by
  rw [scrapeIssueGo, if_neg hmem]
  by_cases hbrk : (fetch p).2 = some "server_error_500" ∨ (fetch p).2 = some "no_content" ∨
      (fetch p).2 = some "invalid_index"
  · simp only [hbrk, if_true]
  · unfold continues at hc
    rw [if_neg hbrk] at hc
    simp only [hbrk, if_false]
    cases hres : (fetch p).1 with
    | none => simp
    | some t =>
      rw [hres] at hc
      have ht : t = "" := by
        by_contra hne
        simp [hne] at hc
      simp [ht]

/-- Content step: the page is not recorded and the fetch yields content, so
the loop appends the row, extends and saves progress, and continues. -/
theorem scrapeIssueGo_continue {p : Nat} (hmem : Nat.repr p ∉ already)
    {t : String} (hres : (fetch p).1 = some t) (hne : t ≠ "")
    (hbrk : ¬((fetch p).2 = some "server_error_500" ∨ (fetch p).2 = some "no_content" ∨
      (fetch p).2 = some "invalid_index"))
    (rest : List Nat) (s : IssueState) :
    scrapeIssueGo fetch aid title date_str already (p :: rest) s =
      scrapeIssueGo fetch aid title date_str already rest
        { results := s.results ++ [mkRecord aid title date_str p t]
          prog := s.prog ++ [Nat.repr p]
          events := s.events ++
            [.appendRow (mkRecord aid title date_str p t),
             .saveProgress (s.prog ++ [Nat.repr p])]
          fetched := s.fetched ++ [p] } := by
  rw [scrapeIssueGo, if_neg hmem]
  simp only [hbrk, if_false, hres, hne, if_neg hne]

/-- Structure of the pages actually fetched by the loop: an in-order
selection of the traversed page list, in which every fetch except possibly
the last one yielded content (the loop breaks at the first fetch that does
not). -/
theorem scrapeIssueGo_fetched :
    ∀ (ps : List Nat) (s : IssueState), ∃ extra : List Nat,
      (scrapeIssueGo fetch aid title date_str already ps s).fetched =
        s.fetched ++ extra ∧
      extra.Sublist ps ∧
      ∀ p ∈ extra.dropLast, continues (fetch p) = true := by
  intro ps
  induction ps with
  | nil =>
    intro s
    exact ⟨[], by simp [scrapeIssueGo], List.nil_sublist _, by simp⟩
  | cons p rest ih =>
    intro s
    by_cases hmem : Nat.repr p ∈ already
    · obtain ⟨extra, he, hsub, hlast⟩ := ih s
      exact ⟨extra, by rwa [scrapeIssueGo_skip fetch aid title date_str already hmem],
        hsub.cons p, hlast⟩
    · by_cases hc : continues (fetch p) = true
      · have hsplit : ¬((fetch p).2 = some "server_error_500" ∨
            (fetch p).2 = some "no_content" ∨ (fetch p).2 = some "invalid_index") := by
          intro hbrk
          unfold continues at hc
          rw [if_pos hbrk] at hc
          exact Bool.false_ne_true hc
        obtain ⟨t, hres, hne⟩ : ∃ t, (fetch p).1 = some t ∧ t ≠ "" := by
          unfold continues at hc
          rw [if_neg hsplit] at hc
          cases hres : (fetch p).1 with
          | none => rw [hres] at hc; exact absurd hc (Bool.false_ne_true)
          | some t =>
            rw [hres] at hc
            exact ⟨t, rfl, by simpa using hc⟩
        rw [scrapeIssueGo_continue fetch aid title date_str already hmem hres hne hsplit]
        obtain ⟨extra, he, hsub, hlast⟩ := ih _
        refine ⟨p :: extra, ?_, hsub.cons₂ p, ?_⟩
        · rw [he]
          simp
        · intro q hq
          cases extra with
          | nil => simp at hq
          | cons e es =>
            rw [List.dropLast_cons₂] at hq
            rcases List.mem_cons.mp hq with h | h
            · rwa [h]
            · exact hlast q h
      · rw [scrapeIssueGo_break fetch aid title date_str already hmem
          (Bool.not_eq_true _ ▸ hc)]
        exact ⟨[p], rfl, (List.nil_sublist rest).cons₂ p, by simp⟩

end IssueLemmas

/-! ### The durable-effect trace of `scrape_issue` is a sequence of
append-then-save blocks -/

theorem rowsOf_append (t u : List DurableEvent) :
    rowsOf (t ++ u) = rowsOf t ++ rowsOf u :=
  List.filterMap_append t u _

theorem lastProg_append (a : List String) (t u : List DurableEvent) :
    lastProg a (t ++ u) = lastProg (lastProg a t) u :=
  List.foldl_append _ a t u

theorem blockTrace_boundary {already : List String} {rs : List Row}
    {t : List DurableEvent} (hb : BlockTrace already rs t) :
    rowsOf t = rs ∧
      lastProg already t = already ++ rs.map (fun x => Nat.repr x.page) := by
  induction hb with
  | nil => simp [rowsOf, lastProg]
  | snoc rs t r hb hpages ih =>
    obtain ⟨hrows, hprog⟩ := ih
    constructor
    · rw [rowsOf_append, hrows]
      rfl
    · rw [lastProg_append]
      rfl

theorem blockTrace_pairwise {already : List String} {rs : List Row}
    {t : List DurableEvent} (hb : BlockTrace already rs t) :
    List.Pairwise (fun x y => x.page < y.page) rs := by
  induction hb with
  | nil => exact List.Pairwise.nil
  | snoc rs t r hb hpages ih =>
    rw [List.pairwise_append]
    exact ⟨ih, List.pairwise_singleton _ _, fun a ha b hb2 => by
      rw [List.mem_singleton] at hb2
      exact hb2 ▸ hpages a ha⟩

theorem blockTrace_length {already : List String} {rs : List Row}
    {t : List DurableEvent} (hb : BlockTrace already rs t) :
    t.length = 2 * rs.length := by
  induction hb with
  | nil => rfl
  | snoc rs t r hb hpages ih => simp [ih]; omega

/-- Crash-consistency along a block trace: after any prefix of the durable
trace, the persisted progress entry extends `already` with the page
strings of a list `rs2` of rows, the rows appended so far are either
exactly `rs2` or `rs2` plus one extra trailing row (appended but not yet
checkpointed), and the appended rows have strictly increasing pages. -/
theorem blockTrace_take {already : List String} {rs : List Row}
    {t : List DurableEvent} (hb : BlockTrace already rs t) :
    ∀ n : Nat, ∃ rs2 : List Row,
      lastProg already (t.take n) = already ++ rs2.map (fun x => Nat.repr x.page) ∧
      (rowsOf (t.take n) = rs2 ∨ ∃ r, rowsOf (t.take n) = rs2 ++ [r]) ∧
      List.Pairwise (fun x y => x.page < y.page) (rowsOf (t.take n)) := by
  induction hb with
  | nil =>
    intro n
    exact ⟨[], by simp [lastProg], Or.inl (by simp [rowsOf]), by simp [rowsOf]⟩
  | snoc rs t r hb hpages ih =>
    intro n
    obtain ⟨hrows, hprog⟩ := blockTrace_boundary hb
    by_cases hn : n ≤ t.length
    · have htake : (t ++ [DurableEvent.appendRow r,
          DurableEvent.saveProgress (already ++ (rs ++ [r]).map (fun x => Nat.repr x.page))]).take n
          = t.take n := by
        rw [List.take_append_eq_append_take]
        have : n - t.length = 0 := by omega
        rw [this]
        simp
      rw [htake]
      exact ih n
    · by_cases hn1 : n = t.length + 1
      · have htake : (t ++ [DurableEvent.appendRow r,
            DurableEvent.saveProgress (already ++ (rs ++ [r]).map (fun x => Nat.repr x.page))]).take n
            = t ++ [DurableEvent.appendRow r] := by
          rw [List.take_append_eq_append_take, List.take_of_length_le (by omega)]
          have : n - t.length = 1 := by omega
          rw [this]
          rfl
        rw [htake, rowsOf_append, lastProg_append, hrows]
        refine ⟨rs, ?_, Or.inr ⟨r, rfl⟩, ?_⟩
        · have : lastProg (lastProg already t) [DurableEvent.appendRow r] =
              lastProg already t := rfl
          rw [this, hprog]
        · have hone : rowsOf [DurableEvent.appendRow r] = [r] := rfl
          rw [hone, List.pairwise_append]
          exact ⟨blockTrace_pairwise hb, List.pairwise_singleton _ _,
            fun a ha b hb2 => by
              rw [List.mem_singleton] at hb2
              exact hb2 ▸ hpages a ha⟩
      · have htake : (t ++ [DurableEvent.appendRow r,
            DurableEvent.saveProgress (already ++ (rs ++ [r]).map (fun x => Nat.repr x.page))]).take n
            = t ++ [DurableEvent.appendRow r,
              DurableEvent.saveProgress (already ++ (rs ++ [r]).map (fun x => Nat.repr x.page))] := by
          apply List.take_of_length_le
          simp only [List.length_append, List.length_cons, List.length_nil]
          omega
        rw [htake, rowsOf_append, lastProg_append, hrows]
        refine ⟨rs ++ [r], ?_, Or.inl rfl, ?_⟩
        · rfl
        · rw [List.pairwise_append]
          have hone : rowsOf [DurableEvent.appendRow r,
              DurableEvent.saveProgress (already ++ (rs ++ [r]).map (fun x => Nat.repr x.page))]
              = [r] := rfl
          rw [hone]
          exact ⟨blockTrace_pairwise hb, List.pairwise_singleton _ _,
            fun a ha b hb2 => by
              rw [List.mem_singleton] at hb2
              exact hb2 ▸ hpages a ha⟩

/-- The `scrape_issue` loop turns any block-shaped state into a
block-shaped state: its durable effects are appended in
append-row-then-save-progress blocks, with the in-memory progress entry
tracking the persisted one. -/
theorem scrapeIssueGo_blocks (fetch : Nat → Option String × Option String)
    (aid title date_str : String) (already : List String) :
    ∀ (ps : List Nat) (s : IssueState) (rs : List Row),
      BlockTrace already rs s.events →
      s.prog = already ++ rs.map (fun x => Nat.repr x.page) →
      List.Pairwise (fun x y => x < y) ps →
      (∀ r ∈ rs, ∀ p ∈ ps, r.page < p) →
      ∃ rs2 : List Row,
        BlockTrace already rs2 (scrapeIssueGo fetch aid title date_str already ps s).events ∧
        (scrapeIssueGo fetch aid title date_str already ps s).prog =
          already ++ rs2.map (fun x => Nat.repr x.page) := by
  intro ps
  induction ps with
  | nil => exact fun s rs hb hp _ _ => ⟨rs, hb, hp⟩
  | cons p rest ih =>
    intro s rs hb hp hpair hpages
    have hpairrest : List.Pairwise (fun x y => x < y) rest := (List.pairwise_cons.mp hpair).2
    have hplt : ∀ q ∈ rest, p < q := (List.pairwise_cons.mp hpair).1
    by_cases hmem : Nat.repr p ∈ already
    · rw [scrapeIssueGo_skip fetch aid title date_str already hmem]
      exact ih s rs hb hp hpairrest
        (fun r hr q hq => hpages r hr q (List.mem_cons_of_mem p hq))
    · by_cases hc : continues (fetch p) = true
      · have hsplit : ¬((fetch p).2 = some "server_error_500" ∨
            (fetch p).2 = some "no_content" ∨ (fetch p).2 = some "invalid_index") := by
          intro hbrk
          unfold continues at hc
          rw [if_pos hbrk] at hc
          exact Bool.false_ne_true hc
        obtain ⟨t, hres, hne⟩ : ∃ t, (fetch p).1 = some t ∧ t ≠ "" := by
          unfold continues at hc
          rw [if_neg hsplit] at hc
          cases hres : (fetch p).1 with
          | none => rw [hres] at hc; exact absurd hc (Bool.false_ne_true)
          | some t =>
            rw [hres] at hc
            exact ⟨t, rfl, by simpa using hc⟩
        rw [scrapeIssueGo_continue fetch aid title date_str already hmem hres hne hsplit]
        have hpage : (mkRecord aid title date_str p t).page = p := rfl
        have hprog2 : s.prog ++ [Nat.repr p] =
            already ++ (rs ++ [mkRecord aid title date_str p t]).map
              (fun x => Nat.repr x.page) := by
          rw [hp, List.map_append, List.append_assoc]
          rfl
        apply ih
        · show BlockTrace already (rs ++ [mkRecord aid title date_str p t]) _
          rw [hprog2]
          exact hb.snoc rs s.events (mkRecord aid title date_str p t)
            (fun r2 hr2 => hpage ▸ hpages r2 hr2 p (List.mem_cons_self p rest))
        · exact hprog2
        · exact hpairrest
        · intro r hr q hq
          rcases List.mem_append.mp hr with h | h
          · exact hpages r h q (List.mem_cons_of_mem p hq)
          · rw [List.mem_singleton] at h
            rw [h, hpage]
            exact hplt q hq
      · rw [scrapeIssueGo_break fetch aid title date_str already hmem
          (Bool.not_eq_true _ ▸ hc)]
        exact ⟨rs, hb, hp⟩

/-- Splitting the page range `1..100` at a checkpoint boundary `k`. -/
theorem range_split (k : Nat) (hk : k ≤ 100) :
    List.range' 1 100 = List.range' 1 k ++ List.range' (k + 1) (100 - k) := by
  have h1 := List.range'_append 1 k (100 - k) 1
  simp only [one_mul] at h1
  have h2 : 100 - k + k = 100 := by omega
  rw [h2, Nat.add_comm 1 k] at h1
  exact h1.symm

/-- Phase after the checkpointed segment: starting the loop at page
`start` with the progress entry holding exactly the strings of
`1..start-1` and `start` beyond the checkpoint bound, the loop keeps the
entry a contiguous `1..m` prefix, and every entry it persists along the
way is a strictly longer contiguous prefix bounded by `m`. -/
theorem scrapeIssueGo_phase2 (fetch : Nat → Option String × Option String)
    (aid title date_str : String) (k : Nat) :
    ∀ (cnt start : Nat) (s : IssueState), k < start →
      s.prog = (List.range' 1 (start - 1)).map Nat.repr →
      ∃ m, start - 1 ≤ m ∧
        (scrapeIssueGo fetch aid title date_str ((List.range' 1 k).map Nat.repr)
          (List.range' start cnt) s).prog = (List.range' 1 m).map Nat.repr ∧
        ∀ pl, DurableEvent.saveProgress pl ∈
            (scrapeIssueGo fetch aid title date_str ((List.range' 1 k).map Nat.repr)
              (List.range' start cnt) s).events →
          (DurableEvent.saveProgress pl ∈ s.events ∨
            ∃ m2, start - 1 < m2 ∧ m2 ≤ m ∧ pl = (List.range' 1 m2).map Nat.repr) := by
  intro cnt
  induction cnt with
  | zero =>
    intro start s hks hprog
    exact ⟨start - 1, le_refl _, hprog, fun pl hpl => Or.inl hpl⟩
  | succ cnt ih =>
    intro start s hks hprog
    rw [List.range'_succ start cnt 1]
    have hmem : Nat.repr start ∉ (List.range' 1 k).map Nat.repr := by
      rw [mem_reprRange]
      omega
    by_cases hc : continues (fetch start) = true
    · have hsplit : ¬((fetch start).2 = some "server_error_500" ∨
          (fetch start).2 = some "no_content" ∨ (fetch start).2 = some "invalid_index") := by
        intro hbrk
        unfold continues at hc
        rw [if_pos hbrk] at hc
        exact Bool.false_ne_true hc
      obtain ⟨t, hres, hne⟩ : ∃ t, (fetch start).1 = some t ∧ t ≠ "" := by
        unfold continues at hc
        rw [if_neg hsplit] at hc
        cases hres : (fetch start).1 with
        | none => rw [hres] at hc; exact absurd hc (Bool.false_ne_true)
        | some t =>
          rw [hres] at hc
          exact ⟨t, rfl, by simpa using hc⟩
      rw [scrapeIssueGo_continue fetch aid title date_str _ hmem hres hne hsplit]
      have hprog2 : s.prog ++ [Nat.repr start] = (List.range' 1 start).map Nat.repr := by
        have hcc : List.range' 1 start = List.range' 1 (start - 1) ++ [start] := by
          have hcat := @List.range'_concat 1 1 (start - 1)
          simp only [one_mul] at hcat
          have hs : start - 1 + 1 = start := by omega
          rw [hs] at hcat
          rw [hcat]
          congr 2
          omega
        rw [hprog, hcc, List.map_append]
        rfl
      obtain ⟨m, hm, hmp, hsaves⟩ := ih (start + 1)
        { results := s.results ++ [mkRecord aid title date_str start t]
          prog := s.prog ++ [Nat.repr start]
          events := s.events ++
            [.appendRow (mkRecord aid title date_str start t),
             .saveProgress (s.prog ++ [Nat.repr start])]
          fetched := s.fetched ++ [start] }
        (by omega) (by simpa using hprog2)
      refine ⟨m, by omega, hmp, ?_⟩
      intro pl hpl
      rcases hsaves pl hpl with hin | hnew
      · simp only [List.mem_append] at hin
        rcases hin with hin | hin
        · exact Or.inl hin
        · rcases List.mem_cons.mp hin with h | h
          · exact absurd h (by simp)
          · rcases List.mem_cons.mp h with h2 | h2
            · have hpl2 : pl = s.prog ++ [Nat.repr start] := by
                injection h2 with h3
              exact Or.inr ⟨start, by omega, by omega, by rw [hpl2, hprog2]⟩
            · exact absurd h2 (by simp)
      · obtain ⟨m2, hm2a, hm2b, hm2c⟩ := hnew
        exact Or.inr ⟨m2, by omega, hm2b, hm2c⟩
    · rw [scrapeIssueGo_break fetch aid title date_str _ hmem (Bool.not_eq_true _ ▸ hc)]
      exact ⟨start - 1, le_refl _, hprog, fun pl hpl => Or.inl hpl⟩

/-! ### Relating the code's header strip to the spec's description -/

theorem dropWhile_pyWS_idem (l : List Char) :
    (l.dropWhile pyWS).dropWhile pyWS = l.dropWhile pyWS := by
  induction l with
  | nil => rfl
  | cons c l ih =>
    by_cases h : pyWS c
    · simp [List.dropWhile_cons, h, ih]
    · simp [List.dropWhile_cons, h]

theorem pyStripList_dropWhile (l : List Char) :
    pyStripList (l.dropWhile pyWS) = pyStripList l := by
  unfold pyStripList
  rw [dropWhile_pyWS_idem]

/-- The code's `re.sub` + `strip` content extraction computes exactly the
spec's strip-through-first-bracket-then-trim. -/
theorem extractContent_eq_spec (body : String) :
    extractContent body = pyStrip ⟨specStripAfterBracket body.data⟩ := by
  unfold extractContent stripHeader specStripAfterBracket pyStrip
  by_cases h : body.data.contains ']'
  · simp only [h, if_true]
    rw [pyStripList_dropWhile]
  · rw [if_neg h, if_neg h]

/-- Response classification of the try-block for statuses that pass the
403/500/`raise_for_status` checks. -/
theorem scrapePageTry_body (st : Nat) (body : String) (h403 : ¬ st = 403)
    (h500 : ¬ st = 500) (h4xx : ¬ (400 ≤ st ∧ st < 600)) :
    (scrapePageTry (.response st body)).2 =
      (if placeholderMatch (pyStrip body) then
        Except.ok ((none : Option String), some "invalid_index")
      else if extractContent body = "" then Except.ok (none, some "no_content")
      else Except.ok (some (extractContent body), none)) := by
  show (if st = 403 then Except.error PyExc.permissionError else _) = _
  rw [if_neg h403, if_neg h500, if_neg h4xx]

/-! ### Claim theorems -/

/-- C4 (code bug): on an HTTP 403 response the try-block of `scrape_page`
does raise `PermissionError`, but the function's own `except Exception`
handler catches it, so the caller receives the generic transient
classification `(None, "error")` instead of the access-denied signal. -/
theorem scrape_page_403_swallowed (body : String) :
    (scrapePageTry (.response 403 body)).2 = Except.error PyExc.permissionError ∧
    scrape_page (.response 403 body) = (none, some "error") :=
  ⟨rfl, rfl⟩

/-- C5: for every 2xx response, `scrape_page` classifies the body exactly
as the spec describes: a trimmed body matching the bracketed placeholder
pattern is terminal-malformed with no content; otherwise everything up to
and including the first right bracket is stripped and the remainder
trimmed, an empty remainder yielding terminal-empty and a nonempty one
yielding that text as content. -/
theorem scrape_page_2xx_matches_spec (st : Nat) (body : String)
    (h1 : 200 ≤ st) (h2 : st < 300) :
    scrape_page (.response st body) = specToPair (specClassifyBody body) := by
  have h403 : ¬ st = 403 := by omega
  have h500 : ¬ st = 500 := by omega
  have h4xx : ¬ (400 ≤ st ∧ st < 600) := by omega
  unfold scrape_page
  rw [scrapePageTry_body st body h403 h500 h4xx]
  unfold specClassifyBody specToPair
  by_cases hp : placeholderMatch (pyStrip body)
  · simp only [hp, if_true]
  · simp only [hp, if_false]
    rw [← extractContent_eq_spec]
    by_cases hcz : extractContent body = ""
    · simp [hp, hcz]
    · simp [hp, hcz]

/-- C5 witness: the spec's worked example — a 2xx response with body
`"[ 2021-05-04 - 20210504 - Seite 1 ] Hello world"` yields the content
`"Hello world"`. -/
theorem scrape_page_2xx_matches_spec_witness :
    ((200 : Nat) ≤ 200 ∧ (200 : Nat) < 300) ∧
    scrape_page (.response 200 "[ 2021-05-04 - 20210504 - Seite 1 ] Hello world") =
      (some "Hello world", none) :=
  ⟨⟨by decide, by decide⟩,
    (scrape_page_2xx_matches_spec 200
      "[ 2021-05-04 - 20210504 - Seite 1 ] Hello world"
      (by decide) (by decide)).trans (by decide)⟩

/-- C6 (counterexample): the politeness delay does not precede the
request, and does not occur at all when the request itself raises: on a
successful response the trace is request-then-sleep, and on an exception
no sleep occurs. -/
theorem politeness_delay_not_before_request :
    scrapePageEvents (.response 200 "x") = [SPEvent.request, SPEvent.sleep] ∧
    SPEvent.sleep ∉ scrapePageEvents HttpOutcome.exception :=
  ⟨rfl, by decide⟩

/-- C6 (amended): in every `scrape_page` call the request comes first; the
delay happens right after the request returns a response (whatever its
status), and is skipped when the request raises. -/
theorem politeness_delay_after_request (st : Nat) (body : String) :
    scrapePageEvents (.response st body) = [SPEvent.request, SPEvent.sleep] ∧
    scrapePageEvents HttpOutcome.exception = [SPEvent.request] :=
  ⟨rfl, rfl⟩

/-- C8 (code bug): because the 403 `PermissionError` is swallowed inside
`scrape_page` (see `scrapePageTry`), nothing propagates out of
`scrape_issue`, the worker's `except PermissionError` never fires, and the
worker keeps processing the remaining issues of its partition: with every
request answered 403, both issues of a two-issue partition are attempted
(one fetch each) instead of the loop stopping after the first. -/
theorem worker_continues_after_403 :
    (runWorkerGo (fun _ _ _ => .response 403 "")
      [("N1", "T1", "20210101"), ("N2", "T2", "20210102")]
      { progress := [], fetchedPerIssue := [] }).fetchedPerIssue = [[1], [1]] := by
  decide

/-- C9: the merge step produces exactly the input rows (a permutation of
the concatenation of all worker output files), sorted by
`(aid, year, month, day, page)`; being a pure function of the input files,
rerunning it on the same inputs yields the same master file. -/
theorem merge_union_sorted (files : List (List Row)) :
    (mergeWorkerOutputs files).Perm files.flatten ∧
    List.Sorted rowKeyLe (mergeWorkerOutputs files) :=
  ⟨List.perm_insertionSort rowKeyLe files.flatten,
    List.sorted_insertionSort rowKeyLe files.flatten⟩

/-- C3: with `N ≥ 1` workers, every indexed issue of the list belongs to
exactly one worker's partition under
`row_index mod total_workers == worker_id - 1`: the partitions of workers
`1..N` are pairwise disjoint and jointly exhaustive. -/
theorem workerPartition_exactly_one {α : Type} (issues : List α) (n : Nat)
    (hn : 1 ≤ n) (p : Nat × α) (hp : p ∈ issues.enum) :
    ∃! w : Nat, (1 ≤ w ∧ w ≤ n) ∧ p ∈ workerPartition n w issues := by
  refine ⟨p.1 % n + 1, ⟨⟨by omega, ?_⟩, ?_⟩, ?_⟩
  · have := Nat.mod_lt p.1 (show 0 < n by omega)
    omega
  · rw [workerPartition, List.mem_filter]
    exact ⟨hp, by simp⟩
  · rintro w ⟨⟨hw1, hw2⟩, hmem⟩
    rw [workerPartition, List.mem_filter] at hmem
    have hw : p.1 % n = w - 1 := by simpa using hmem.2
    omega

/-- C3 witness: with 2 workers over a 3-issue list, the issue at index 1
is assigned to exactly one worker. -/
theorem workerPartition_exactly_one_witness :
    ((1 : Nat) ≤ 2 ∧ ((1, "b") : Nat × String) ∈ (["a", "b", "c"] : List String).enum) ∧
    ∃! w : Nat, (1 ≤ w ∧ w ≤ 2) ∧
      ((1, "b") : Nat × String) ∈ workerPartition 2 w ["a", "b", "c"] :=
  ⟨⟨by decide, by decide⟩,
    workerPartition_exactly_one ["a", "b", "c"] 2 (by decide) (1, "b") (by decide)⟩

/-- C7: within one issue, `scrape_issue` fetches pages as an in-order
selection of `1..100` (strictly increasing, starting no earlier than page
1, at most 100 fetches — hence the scan always terminates), and every
fetched page except possibly the last yielded content: the scan stops at
the first terminal or transient classification. -/
theorem scrape_issue_in_order_bounded (fetch : Nat → Option String × Option String)
    (aid title date_str : String) (already : List String) :
    (scrape_issue fetch aid title date_str already).fetched.Sublist (List.range' 1 100) ∧
    List.Pairwise (fun x y => x < y) (scrape_issue fetch aid title date_str already).fetched ∧
    (scrape_issue fetch aid title date_str already).fetched.length ≤ 100 ∧
    ∀ p ∈ (scrape_issue fetch aid title date_str already).fetched.dropLast,
      continues (fetch p) = true := by
  obtain ⟨extra, he, hsub, hlast⟩ :=
    scrapeIssueGo_fetched fetch aid title date_str already (List.range' 1 100)
      (initState already)
  have hfetched : (scrape_issue fetch aid title date_str already).fetched = extra := by
    rw [scrape_issue, he]
    rfl
  rw [hfetched]
  refine ⟨hsub, List.Pairwise.sublist hsub (List.pairwise_lt_range' 1 100), ?_, hlast⟩
  have := hsub.length_le
  simpa using this

/-- C2: at every point of an issue scrape (any prefix `n` of the durable
effect trace), the persisted progress entry extends the initial entry with
the page strings of a list `rs2` of output rows; the rows actually
appended to the output file are `rs2` or `rs2` plus one extra trailing row
(appended but not yet checkpointed, the crash window of the
append-before-checkpoint order); and appended rows have strictly
increasing page numbers, so every checkpointed page corresponds to exactly
one output row and a progress entry without its output row is
impossible. -/
theorem scrape_issue_progress_output_consistent
    (fetch : Nat → Option String × Option String) (aid title date_str : String)
    (already : List String) (n : Nat) :
    ∃ rs2 : List Row,
      lastProg already ((scrape_issue fetch aid title date_str already).events.take n) =
        already ++ rs2.map (fun x => Nat.repr x.page) ∧
      (rowsOf ((scrape_issue fetch aid title date_str already).events.take n) = rs2 ∨
        ∃ r, rowsOf ((scrape_issue fetch aid title date_str already).events.take n) =
          rs2 ++ [r]) ∧
      List.Pairwise (fun x y => x.page < y.page)
        (rowsOf ((scrape_issue fetch aid title date_str already).events.take n)) := by
  obtain ⟨rs2, hb, _⟩ :=
    scrapeIssueGo_blocks fetch aid title date_str already (List.range' 1 100)
      (initState already) [] BlockTrace.nil (by simp [initState])
      (List.pairwise_lt_range' 1 100) (by simp)
  exact blockTrace_take hb n

/-- C1 (counterexample): an issue whose checkpoint entry covers pages
`1..1` and whose page 2 fetch is terminal — rerunning `scrape_issue` on it
performs one network request (it refetches the terminal page 2, whose
terminal status is never checkpointed), not zero; it does produce zero new
output rows. -/
theorem resume_refetches_terminal_page :
    ¬ ((scrape_issue (fun _ => ((none : Option String), some "no_content"))
        "N" "T" "20210504" ["1"]).fetched = []) ∧
    (scrape_issue (fun _ => ((none : Option String), some "no_content"))


        "N" "T" "20210504" ["1"]).results = [] := by
  decide

/-- C1 (amended): for an issue whose checkpoint entry is exactly pages
`1..k` (`k < 100`) and whose page `k+1` would be classified terminal (or
transient), rerunning `scrape_issue` performs exactly one network request
— the refetch of page `k+1` — and produces zero new output rows, zero
durable effects, and leaves the progress entry unchanged. -/
theorem scrape_issue_resume_single_refetch
    (fetch : Nat → Option String × Option String) (aid title date_str : String)
    (already : List String) (k : Nat) (hk : k < 100)
    (h1 : already = (List.range' 1 k).map Nat.repr)
    (hterm : continues (fetch (k + 1)) = false) :
    (scrape_issue fetch aid title date_str already).fetched = [k + 1] ∧
    (scrape_issue fetch aid title date_str already).results = [] ∧
    (scrape_issue fetch aid title date_str already).events = [] ∧
    (scrape_issue fetch aid title date_str already).prog = already := by
  obtain ⟨rest, hsplit⟩ :
      ∃ rest, List.range' 1 100 = List.range' 1 k ++ ((k + 1) :: rest) := by
    obtain ⟨c, hc⟩ : ∃ c, 100 - k = c + 1 := ⟨100 - k - 1, by omega⟩
    exact ⟨List.range' (k + 1 + 1) c,
      by rw [range_split k (by omega), hc, List.range'_succ (k + 1) c 1]⟩
  have hskip : ∀ p ∈ List.range' 1 k, Nat.repr p ∈ already := by
    intro p hp
    rw [h1]
    exact List.mem_map_of_mem Nat.repr hp
  have hmem : Nat.repr (k + 1) ∉ already := by
    rw [h1, mem_reprRange]
    omega
  rw [scrape_issue, hsplit,
    scrapeIssueGo_skip_all fetch aid title date_str already hskip _ _,
    scrapeIssueGo_break fetch aid title date_str already hmem hterm _ _]
  exact ⟨rfl, rfl, rfl, rfl⟩

/-- C1 witness: concrete instance with `k = 1`. -/
theorem scrape_issue_resume_single_refetch_witness :
    ((1 : Nat) < 100 ∧ ["1"] = (List.range' 1 1).map Nat.repr ∧
      continues ((fun _ => ((none : Option String), some "no_content")) (1 + 1)) = false) ∧
    (scrape_issue (fun _ => ((none : Option String), some "no_content"))
      "N" "T" "20210504" ["1"]).fetched = [2] :=
  ⟨⟨by decide, by decide, by decide⟩,
    (scrape_issue_resume_single_refetch
      (fun _ => ((none : Option String), some "no_content")) "N" "T" "20210504"
      ["1"] 1 (by decide) (by decide) (by decide)).1⟩

/-- C10: if the checkpoint entry loaded for an issue is exactly the page
strings `"1", ..., "k"`, then after `scrape_issue` the entry is exactly
`"1", ..., "m"` for some `m ≥ k` (a contiguous prefix, strictly increasing
with no duplicates), and every entry persisted along the way is a
contiguous prefix `"1", ..., "m2"` with `k < m2 ≤ m`: pages are appended
one at a time in strictly increasing order and no recorded page is ever
appended again. -/
theorem scrape_issue_progress_contiguous
    (fetch : Nat → Option String × Option String) (aid title date_str : String)
    (already : List String) (k : Nat)
    (h1 : already = (List.range' 1 k).map Nat.repr) :
    ∃ m, k ≤ m ∧
      (scrape_issue fetch aid title date_str already).prog =
        (List.range' 1 m).map Nat.repr ∧
      ∀ pl, DurableEvent.saveProgress pl ∈
          (scrape_issue fetch aid title date_str already).events →
        ∃ m2, k < m2 ∧ m2 ≤ m ∧ pl = (List.range' 1 m2).map Nat.repr := by
  subst h1
  by_cases hk : k < 100
  · rw [scrape_issue, range_split k (by omega),
      scrapeIssueGo_skip_all fetch aid title date_str _
        (fun p hp => List.mem_map_of_mem Nat.repr hp) _ _]
    have hcnt : 100 - k = 100 - k := rfl
    obtain ⟨m, hm, hprog, hsaves⟩ :=
      scrapeIssueGo_phase2 fetch aid title date_str k (100 - k) (k + 1)
        (initState ((List.range' 1 k).map Nat.repr)) (by omega)
        (by simp [initState])
    refine ⟨m, by omega, hprog, ?_⟩
    intro pl hpl
    rcases hsaves pl hpl with h | h
    · exact absurd h (by simp [initState])
    · obtain ⟨m2, h2, h3, h4⟩ := h
      exact ⟨m2, by omega, h3, h4⟩
  · have hall : List.range' 1 100 = List.range' 1 100 ++ ([] : List Nat) := by simp
    rw [scrape_issue, hall,
      scrapeIssueGo_skip_all fetch aid title date_str _
        (fun p hp => List.mem_map_of_mem Nat.repr
          (by rw [List.mem_range'_1] at hp ⊢; omega)) _ _]
    have hnil : scrapeIssueGo fetch aid title date_str ((List.range' 1 k).map Nat.repr) []
        (initState ((List.range' 1 k).map Nat.repr)) =
        initState ((List.range' 1 k).map Nat.repr) := rfl
    rw [hnil]
    exact ⟨k, le_refl k, rfl, fun pl hpl => absurd hpl (by simp [initState])⟩

/-- C10 witness: concrete instance with `k = 2`. -/
theorem scrape_issue_progress_contiguous_witness :
    (["1", "2"] = (List.range' 1 2).map Nat.repr) ∧
    ∃ m, 2 ≤ m ∧
      (scrape_issue (fun _ => ((none : Option String), some "no_content"))
        "N" "T" "20210504" ["1", "2"]).prog = (List.range' 1 m).map Nat.repr ∧
      ∀ pl, DurableEvent.saveProgress pl ∈
          (scrape_issue (fun _ => ((none : Option String), some "no_content"))
            "N" "T" "20210504" ["1", "2"]).events →
        ∃ m2, 2 < m2 ∧ m2 ≤ m ∧ pl = (List.range' 1 m2).map Nat.repr :=
  ⟨by decide,
    scrape_issue_progress_contiguous
      (fun _ => ((none : Option String), some "no_content")) "N" "T" "20210504"
      ["1", "2"] 2 (by decide)⟩

end Anno
